import Mathlib

/-!
# WxAnalysis surface-analysis core: a Lean model

A shallow embedding of the spatial-field analysis and contouring engine of
the WxAnalysis frontend (`frontend/src/App.tsx`): station decluttering
(`thinByPixelGrid`, `declutteredObs`), inverse-distance-weighted gridding
(`drawOne`), marching-squares contour extraction (`contoursForLevel`),
level-list generation, contour labeling (`labelContours`) and the wind-barb
glyph (`drawWindBarb`).

JavaScript numbers are modelled as exact rationals (`ℚ`); the `NaN`
"no data" sentinel stored in the `Float32Array` grids is modelled as
`Option ℚ` with `none` for `NaN`.  `Math.floor` on a rational is `Int.floor`
and `Math.round` is `⌊x + 1/2⌋` (JavaScript rounds halves up).
-/

namespace WxAnalysis

/-- A pixel-space point (`type Pt = { x, y }`). -/
structure Pt where
  x : ℚ
  y : ℚ
  deriving Repr, DecidableEq

/-- `interp(a, b, t) = a + (b - a) * t` from `App.tsx`. -/
def interp (a b t : ℚ) : ℚ := a + (b - a) * t

/-- The `(d || 1e-9)` guard used on edge-interpolation denominators in
`contoursForLevel`: a zero denominator (falsy in JavaScript) is replaced by
`1e-9`. -/
def safeDenom (d : ℚ) : ℚ := if d = 0 then 1 / 1000000000 else d

/-- The 4-bit marching-squares cell code of `contoursForLevel`:
bit 1 for `v0 >= level`, bit 2 for `v1`, bit 4 for `v2`, bit 8 for `v3`
(corners in order top-left, top-right, bottom-right, bottom-left). -/
def cellCode (v0 v1 v2 v3 level : ℚ) : ℕ :=
  (if level ≤ v0 then 1 else 0) + (if level ≤ v1 then 2 else 0) +
    (if level ≤ v2 then 4 else 0) + (if level ≤ v3 then 8 else 0)

/-- The segments `contoursForLevel` emits for one fully populated cell with
corner values `v0..v3`, pixel origin `(x, y)` and size `step`: the cell code
is computed, codes 0 and 15 are skipped, the four edge crossings are
linearly interpolated (with `safeDenom` guarding ties), and the 14 remaining
codes map to the fixed segment patterns of the `switch`. -/
def cellSegs (v0 v1 v2 v3 x y step level : ℚ) : List (List Pt) :=
  let c := cellCode v0 v1 v2 v3 level
  if c = 0 ∨ c = 15 then []
  else
    let t01 := (level - v0) / safeDenom (v1 - v0)
    let t12 := (level - v1) / safeDenom (v2 - v1)
    let t23 := (level - v2) / safeDenom (v3 - v2)
    let t30 := (level - v3) / safeDenom (v0 - v3)
    let p01 : Pt := ⟨x + interp 0 step t01, y⟩
    let p12 : Pt := ⟨x + step, y + interp 0 step t12⟩
    let p23 : Pt := ⟨x + interp step 0 t23, y + step⟩
    let p30 : Pt := ⟨x, y + interp step 0 t30⟩
    match c with
    | 1 => [[p30, p01]]
    | 2 => [[p01, p12]]
    | 3 => [[p30, p12]]
    | 4 => [[p12, p23]]
    | 5 => [[p30, p23], [p01, p12]]
    | 6 => [[p01, p23]]
    | 7 => [[p30, p23]]
    | 8 => [[p23, p30]]
    | 9 => [[p01, p23]]
    | 10 => [[p01, p30], [p12, p23]]
    | 11 => [[p12, p23]]
    | 12 => [[p12, p30]]
    | 13 => [[p01, p12]]
    | 14 => [[p30, p01]]
    | _ => []

/-- Marching squares for one contour level (`contoursForLevel`).  The grid is
row-major (`gridVals[j * nx + i]`, `none` for `NaN`); the nested loops over
the `(nx-1) × (ny-1)` cells skip any cell with a missing corner and otherwise
emit `cellSegs` for that cell. -/
def contoursForLevel (gridVals : List (Option ℚ)) (nx ny : ℕ) (step level : ℚ) :
    List (List Pt) :=
  (List.range (ny - 1)).flatMap fun j =>
    (List.range (nx - 1)).flatMap fun i =>
      match gridVals.getD (j * nx + i) none, gridVals.getD (j * nx + (i + 1)) none,
          gridVals.getD ((j + 1) * nx + (i + 1)) none, gridVals.getD ((j + 1) * nx + i) none with
      | some v0, some v1, some v2, some v3 =>
          cellSegs v0 v1 v2 v3 ((i : ℚ) * step) ((j : ℚ) * step) step level
      | _, _, _, _ => []

/-- `C1`: for the cell `v0=30, v1=40, v2=50, v3=20` (top-left, top-right,
bottom-right, bottom-left), level 35, origin `(0,0)` and `step = 10`, the
extractor returns exactly one segment, from `(5, 0)` to `(5, 10)`. -/
theorem contours_authoritative_example :
    contoursForLevel [some 30, some 40, some 20, some 50] 2 2 10 35 =
      [[⟨5, 0⟩, ⟨5, 10⟩]] := by
  norm_num [contoursForLevel, cellSegs, cellCode, interp, safeDenom, List.range_succ]

/-- A cell whose four corners all satisfy `level ≤ v` has code 15 and emits
no segment. -/
lemma cellSegs_eq_nil_of_all_ge (v0 v1 v2 v3 x y step level : ℚ)
    (h0 : level ≤ v0) (h1 : level ≤ v1) (h2 : level ≤ v2) (h3 : level ≤ v3) :
    cellSegs v0 v1 v2 v3 x y step level = [] := by
  simp [cellSegs, cellCode, h0, h1, h2, h3]

/-- A cell whose four corners are all strictly below `level` has code 0 and
emits no segment. -/
lemma cellSegs_eq_nil_of_all_lt (v0 v1 v2 v3 x y step level : ℚ)
    (h0 : v0 < level) (h1 : v1 < level) (h2 : v2 < level) (h3 : v3 < level) :
    cellSegs v0 v1 v2 v3 x y step level = [] := by
  simp [cellSegs, cellCode, not_le.mpr h0, not_le.mpr h1, not_le.mpr h2, not_le.mpr h3]

/-- `C3`: every segment emitted by `contoursForLevel` comes from a cell whose
four corners are all present (no `NaN` sentinel) and which is non-uniform:
neither all corners `≥ level` (code 15) nor all corners `< level` (code 0). -/
theorem marching_squares_cell_invariant
    (gridVals : List (Option ℚ)) (nx ny : ℕ) (step level : ℚ) (seg : List Pt)
    (hseg : seg ∈ contoursForLevel gridVals nx ny step level) :
    ∃ i j v0 v1 v2 v3, i < nx - 1 ∧ j < ny - 1 ∧
      gridVals.getD (j * nx + i) none = some v0 ∧
      gridVals.getD (j * nx + (i + 1)) none = some v1 ∧
      gridVals.getD ((j + 1) * nx + (i + 1)) none = some v2 ∧
      gridVals.getD ((j + 1) * nx + i) none = some v3 ∧
      ¬(level ≤ v0 ∧ level ≤ v1 ∧ level ≤ v2 ∧ level ≤ v3) ∧
      ¬(v0 < level ∧ v1 < level ∧ v2 < level ∧ v3 < level) ∧
      seg ∈ cellSegs v0 v1 v2 v3 ((i : ℚ) * step) ((j : ℚ) * step) step level := by
  simp only [contoursForLevel, List.mem_flatMap, List.mem_range] at hseg
  obtain ⟨j, hj, i, hi, hmem⟩ := hseg
  cases h0 : gridVals.getD (j * nx + i) none with
  | none => rw [h0] at hmem; simp at hmem
  | some v0 =>
    cases h1 : gridVals.getD (j * nx + (i + 1)) none with
    | none => rw [h0, h1] at hmem; simp at hmem
    | some v1 =>
      cases h2 : gridVals.getD ((j + 1) * nx + (i + 1)) none with
      | none => rw [h0, h1, h2] at hmem; simp at hmem
      | some v2 =>
        cases h3 : gridVals.getD ((j + 1) * nx + i) none with
        | none => rw [h0, h1, h2, h3] at hmem; simp at hmem
        | some v3 =>
          rw [h0, h1, h2, h3] at hmem
          dsimp only at hmem
          refine ⟨i, j, v0, v1, v2, v3, hi, hj, h0, h1, h2, h3, ?_, ?_, hmem⟩
          · rintro ⟨g0, g1, g2, g3⟩
            rw [cellSegs_eq_nil_of_all_ge v0 v1 v2 v3 _ _ _ _ g0 g1 g2 g3] at hmem
            simp at hmem
          · rintro ⟨g0, g1, g2, g3⟩
            rw [cellSegs_eq_nil_of_all_lt v0 v1 v2 v3 _ _ _ _ g0 g1 g2 g3] at hmem
            simp at hmem

/-- Witness for `marching_squares_cell_invariant`: the authoritative example
cell satisfies the hypothesis and the invariant. -/
theorem marching_squares_cell_invariant_witness :
    ∃ i j v0 v1 v2 v3, i < 2 - 1 ∧ j < 2 - 1 ∧
      (List.getD [some 30, some 40, some 20, some 50] (j * 2 + i) none = some v0) ∧
      (List.getD [some 30, some 40, some 20, some 50] (j * 2 + (i + 1)) none = some v1) ∧
      (List.getD [some 30, some 40, some 20, some 50] ((j + 1) * 2 + (i + 1)) none = some v2) ∧
      (List.getD [some 30, some 40, some 20, some 50] ((j + 1) * 2 + i) none = some v3) ∧
      ¬((35 : ℚ) ≤ v0 ∧ (35 : ℚ) ≤ v1 ∧ (35 : ℚ) ≤ v2 ∧ (35 : ℚ) ≤ v3) ∧
      ¬(v0 < 35 ∧ v1 < 35 ∧ v2 < 35 ∧ v3 < 35) ∧
      [Pt.mk 5 0, Pt.mk 5 10] ∈ cellSegs v0 v1 v2 v3 ((i : ℚ) * 10) ((j : ℚ) * 10) 10 35 :=
  marching_squares_cell_invariant [some 30, some 40, some 20, some 50] 2 2 10 35
    [Pt.mk 5 0, Pt.mk 5 10]
    (by norm_num [contoursForLevel, cellSegs, cellCode, interp, safeDenom, List.range_succ])

/-- `C4` counterexample: a cell whose corner values in the extractor's corner
order (top-left, top-right, bottom-right, bottom-left) are `(10,20,20,10)` at
level 15 is not a saddle — its code is 6 and the extractor emits exactly one
segment, not two.  (Row-major, the 2×2 grid is `[10, 20, 10, 20]`.) -/
theorem saddle_corner_order_counterexample :
    (contoursForLevel [some 10, some 20, some 10, some 20] 2 2 10 15).length = 1 ∧
      (contoursForLevel [some 10, some 20, some 10, some 20] 2 2 10 15).length ≠ 2 := by
  have h : (contoursForLevel [some 10, some 20, some 10, some 20] 2 2 10 15).length = 1 := by
    norm_num [contoursForLevel, cellSegs, cellCode, interp, safeDenom, List.range_succ]
  exact ⟨h, by rw [h]; norm_num⟩

/-- `C4` (amended): the symmetric-saddle 2×2 grid has row-major values
`{10, 20, 20, 10}`, i.e. corner values `(10, 20, 10, 20)` in the extractor's
corner order; at level 15 its code is the ambiguous 10 and the extractor
emits exactly 2 segments (the fixed two-diagonal saddle policy), not 0 or 4. -/
theorem saddle_two_segments :
    (contoursForLevel [some 10, some 20, some 20, some 10] 2 2 10 15).length = 2 := by
  norm_num [contoursForLevel, cellSegs, cellCode, interp, safeDenom, List.range_succ]

/-! ## Scalar field interpolator (`drawOne` in `drawAnalysisOverlay`) -/

/-- One input point of the scalar interpolator: projected pixel position and
the field value (`pts.push({ x, y, val })` in `drawOne`; observations with a
null attribute are excluded before this point). -/
structure ObsPt where
  x : ℚ
  y : ℚ
  val : ℚ
  deriving Repr, DecidableEq

/-- A neighbor candidate `{ d2, val }` of the bounded nearest-neighbor
search. -/
structure Neighbor where
  d2 : ℚ
  val : ℚ
  deriving Repr, DecidableEq

/-- `maxRadius = 200` (px search radius). -/
def maxRadius : ℚ := 200

/-- `maxRadius2 = maxRadius * maxRadius`. -/
def maxRadius2 : ℚ := maxRadius * maxRadius

/-- `kMax = 10` (neighbor cap). -/
def kMax : ℕ := 10

/-- `power = 2` (inverse-distance power parameter). -/
def power : ℕ := 2

/-- Squared pixel distance `dx*dx + dy*dy` from a point to a grid node. -/
def sqDist (p : ObsPt) (gx gy : ℚ) : ℚ :=
  (p.x - gx) * (p.x - gx) + (p.y - gy) * (p.y - gy)

/-- The sorted-insertion step of the neighbor search: the new neighbor is
spliced in before the first strictly farther entry, or pushed at the end. -/
def insertNeighbor : List Neighbor → Neighbor → List Neighbor
  | [], n => [n]
  | m :: rest, n => if n.d2 < m.d2 then n :: m :: rest else m :: insertNeighbor rest n

/-- `if (neighbors.length > kMax) neighbors.pop();` — drop the last (farthest)
entry when the candidate list exceeds the cap. -/
def truncTo (k : ℕ) (l : List Neighbor) : List Neighbor :=
  if k < l.length then l.dropLast else l

/-- The bounded nearest-neighbor search of `drawOne`: every input point
within the search radius is inserted in distance-sorted position and the
list is truncated to `kMax` entries. -/
def collectNeighbors (pts : List ObsPt) (gx gy : ℚ) : List Neighbor :=
  pts.foldl
    (fun acc p =>
      let d2 := sqDist p gx gy
      if maxRadius2 < d2 then acc
      else truncTo kMax (insertNeighbor acc ⟨d2, p.val⟩))
    []

/-- The inverse-distance weight `1 / Math.pow(Math.max(d2, 9), power / 2)`. -/
def idwWeight (d2 : ℚ) : ℚ := 1 / max d2 9 ^ (power / 2)

/-- The weight and weighted-value accumulation loop of `drawOne`:
returns `(wSum, vSum)`. -/
def idwSums (ns : List Neighbor) : ℚ × ℚ :=
  ns.foldl (fun acc n => (acc.1 + idwWeight n.d2, acc.2 + idwWeight n.d2 * n.val)) (0, 0)

/-- The interpolated value of one grid node in `drawOne`: `none` (the `NaN`
sentinel) when fewer than 3 neighbors are found or the weight sum is not
positive, otherwise the weighted mean `vSum / wSum`. -/
def nodeValue (pts : List ObsPt) (gx gy : ℚ) : Option ℚ :=
  let ns := collectNeighbors pts gx gy
  if ns.length < 3 then none
  else
    let s := idwSums ns
    if s.1 ≤ 0 then none else some (s.2 / s.1)

/-- The whole interpolated grid of `drawOne`: skipped entirely
(`if (pts.length < 3) return`) when the field has fewer than 3 input points,
otherwise the row-major `nx × ny` lattice of node values at spacing `step`. -/
def scalarGrid (pts : List ObsPt) (nx ny : ℕ) (step : ℚ) : Option (List (Option ℚ)) :=
  if pts.length < 3 then none
  else
    some ((List.range ny).flatMap fun j =>
      (List.range nx).map fun i => nodeValue pts ((i : ℚ) * step) ((j : ℚ) * step))

/-- The input points lying within the search radius of a node. -/
def inRadius (pts : List ObsPt) (gx gy : ℚ) : List ObsPt :=
  pts.filter fun p => sqDist p gx gy ≤ maxRadius2

/-- The in-radius points of a node as neighbor records. -/
def inRadiusNeighbors (pts : List ObsPt) (gx gy : ℚ) : List Neighbor :=
  (inRadius pts gx gy).map fun p => ⟨sqDist p gx gy, p.val⟩

/-- Stable insertion sort by squared distance (ties keep the input order) —
the ordering the code's bounded insertion maintains. -/
def sortByD2 (l : List Neighbor) : List Neighbor := l.foldl insertNeighbor []

/-- Modelled from the spec's words: "the up-to-10 nearest in-radius points"
of a grid node — the first `kMax` entries of the in-radius neighbor records
sorted by distance. -/
def nearestNeighbors (pts : List ObsPt) (gx gy : ℚ) : List Neighbor :=
  (sortByD2 (inRadiusNeighbors pts gx gy)).take kMax

lemma truncTo_cons (k : ℕ) (m : Neighbor) (L : List Neighbor) :
    truncTo (k + 1) (m :: L) = m :: truncTo k L := by
  cases L with
  | nil => simp [truncTo]
  | cons b bs =>
    simp only [truncTo, List.length_cons]
    by_cases h : k < bs.length + 1
    · rw [if_pos (by omega), if_pos h]
      rfl
    · rw [if_neg (by omega), if_neg h]

lemma truncTo_take_succ (L : List Neighbor) (k : ℕ) :
    truncTo k (L.take (k + 1)) = L.take k := by
  by_cases h : k + 1 ≤ L.length
  · have hlen : (L.take (k + 1)).length = k + 1 := by
      simp [List.length_take]
      omega
    rw [truncTo, if_pos (by omega), List.dropLast_eq_take, hlen]
    simp [List.take_take]
  · have h1 : L.take (k + 1) = L := List.take_of_length_le (by omega)
    have h2 : L.take k = L := by
      by_cases hk : L.length ≤ k
      · exact List.take_of_length_le hk
      · omega
    rw [h1, h2, truncTo, if_neg (by omega)]

/-- Truncating to `k` after each sorted insertion computes the first `k`
entries of the fully sorted list. -/
lemma take_insertNeighbor (s : List Neighbor) (n : Neighbor) (k : ℕ) :
    (insertNeighbor s n).take k = truncTo k (insertNeighbor (s.take k) n) := by
  induction s generalizing k with
  | nil =>
    cases k with
    | zero => simp [insertNeighbor, truncTo]
    | succ k => simp [insertNeighbor, truncTo]
  | cons m rest ih =>
    cases k with
    | zero => simp [insertNeighbor, truncTo]
    | succ k =>
      by_cases hn : n.d2 < m.d2
      · rw [show insertNeighbor (m :: rest) n = n :: m :: rest by
            simp [insertNeighbor, hn],
          List.take_succ_cons, List.take_succ_cons,
          show insertNeighbor (m :: rest.take k) n = n :: m :: rest.take k by
            simp [insertNeighbor, hn],
          truncTo_cons]
        exact congrArg (n :: ·) (truncTo_take_succ (m :: rest) k).symm
      · rw [show insertNeighbor (m :: rest) n = m :: insertNeighbor rest n by
            simp [insertNeighbor, hn],
          List.take_succ_cons, List.take_succ_cons,
          show insertNeighbor (m :: rest.take k) n = m :: insertNeighbor (rest.take k) n by
            simp [insertNeighbor, hn],
          truncTo_cons]
        exact congrArg (m :: ·) (ih k)

lemma foldl_truncTo_insert (l : List Neighbor) (s : List Neighbor) (k : ℕ) :
    l.foldl (fun acc n => truncTo k (insertNeighbor acc n)) (s.take k) =
      (l.foldl insertNeighbor s).take k := by
  induction l generalizing s with
  | nil => rfl
  | cons n l ih =>
    simp only [List.foldl_cons]
    rw [← take_insertNeighbor, ih]

/-- The bounded candidate list of the code equals the first `kMax` entries of
the sorted in-radius neighbor list. -/
lemma collectNeighbors_eq_nearest (pts : List ObsPt) (gx gy : ℚ) :
    collectNeighbors pts gx gy = nearestNeighbors pts gx gy := by
  have hfold : ∀ (ps : List ObsPt) (acc : List Neighbor),
      ps.foldl
        (fun acc p =>
          let d2 := sqDist p gx gy
          if maxRadius2 < d2 then acc
          else truncTo kMax (insertNeighbor acc ⟨d2, p.val⟩)) acc =
        ((ps.filter fun p => sqDist p gx gy ≤ maxRadius2).map
            fun p => (⟨sqDist p gx gy, p.val⟩ : Neighbor)).foldl
          (fun acc n => truncTo kMax (insertNeighbor acc n)) acc := by
    intro ps
    induction ps with
    | nil => intro acc; rfl
    | cons p rest ih =>
      intro acc
      by_cases h : maxRadius2 < sqDist p gx gy
      · simp only [List.foldl_cons, if_pos h, List.filter_cons,
          decide_eq_true_eq, if_neg (not_le.mpr h)]
        exact ih acc
      · simp only [List.foldl_cons, if_neg h, List.filter_cons,
          decide_eq_true_eq, if_pos (not_lt.mp h), List.map_cons]
        exact ih _
  rw [collectNeighbors, hfold,
    show ([] : List Neighbor) = ([] : List Neighbor).take kMax from rfl,
    foldl_truncTo_insert]
  rfl

lemma mem_insertNeighbor {x n : Neighbor} {s : List Neighbor} :
    x ∈ insertNeighbor s n ↔ x = n ∨ x ∈ s := by
  induction s with
  | nil => simp [insertNeighbor]
  | cons m rest ih =>
    by_cases h : n.d2 < m.d2
    · simp only [insertNeighbor, if_pos h, List.mem_cons]
    · simp only [insertNeighbor, if_neg h, List.mem_cons, ih]
      tauto

lemma pairwise_insertNeighbor {s : List Neighbor} {n : Neighbor}
    (hs : s.Pairwise fun a b => a.d2 ≤ b.d2) :
    (insertNeighbor s n).Pairwise fun a b => a.d2 ≤ b.d2 := by
  induction s with
  | nil => simp [insertNeighbor]
  | cons m rest ih =>
    rw [List.pairwise_cons] at hs
    by_cases h : n.d2 < m.d2
    · rw [show insertNeighbor (m :: rest) n = n :: m :: rest by simp [insertNeighbor, h]]
      rw [List.pairwise_cons]
      refine ⟨?_, List.pairwise_cons.mpr hs⟩
      intro x hx
      rcases List.mem_cons.mp hx with rfl | hx
      · exact le_of_lt h
      · exact le_trans (le_of_lt h) (hs.1 x hx)
    · rw [show insertNeighbor (m :: rest) n = m :: insertNeighbor rest n by
          simp [insertNeighbor, h]]
      rw [List.pairwise_cons]
      refine ⟨?_, ih hs.2⟩
      intro x hx
      rcases mem_insertNeighbor.mp hx with rfl | hx
      · exact not_lt.mp h
      · exact hs.1 x hx

lemma perm_insertNeighbor (s : List Neighbor) (n : Neighbor) :
    List.Perm (insertNeighbor s n) (n :: s) := by
  induction s with
  | nil => simp [insertNeighbor]
  | cons m rest ih =>
    by_cases h : n.d2 < m.d2
    · rw [show insertNeighbor (m :: rest) n = n :: m :: rest by simp [insertNeighbor, h]]
    · rw [show insertNeighbor (m :: rest) n = m :: insertNeighbor rest n by
          simp [insertNeighbor, h]]
      exact (List.Perm.cons m ih).trans (List.Perm.swap n m rest)

lemma sortByD2_pairwise (l : List Neighbor) :
    (sortByD2 l).Pairwise fun a b => a.d2 ≤ b.d2 := by
  have : ∀ (l acc : List Neighbor), acc.Pairwise (fun a b => a.d2 ≤ b.d2) →
      (l.foldl insertNeighbor acc).Pairwise fun a b => a.d2 ≤ b.d2 := by
    intro l
    induction l with
    | nil => intro acc h; exact h
    | cons n rest ih => intro acc h; exact ih _ (pairwise_insertNeighbor h)
  exact this l [] List.Pairwise.nil

lemma sortByD2_perm (l : List Neighbor) : List.Perm (sortByD2 l) l := by
  have : ∀ (l acc : List Neighbor), List.Perm (l.foldl insertNeighbor acc) (acc ++ l) := by
    intro l
    induction l with
    | nil => intro acc; simp
    | cons n rest ih =>
      intro acc
      refine (ih (insertNeighbor acc n)).trans ?_
      refine (List.Perm.append_right rest (perm_insertNeighbor acc n)).trans ?_
      exact List.perm_middle.symm
  simpa using this l []

lemma idwSums_fst (ns : List Neighbor) (a b : ℚ) :
    (ns.foldl (fun acc n => (acc.1 + idwWeight n.d2, acc.2 + idwWeight n.d2 * n.val))
        (a, b)).1 =
      a + (ns.map fun n => idwWeight n.d2).sum := by
  induction ns generalizing a b with
  | nil => simp
  | cons n rest ih => simp [ih, add_assoc]

lemma idwSums_snd (ns : List Neighbor) (a b : ℚ) :
    (ns.foldl (fun acc n => (acc.1 + idwWeight n.d2, acc.2 + idwWeight n.d2 * n.val))
        (a, b)).2 =
      b + (ns.map fun n => idwWeight n.d2 * n.val).sum := by
  induction ns generalizing a b with
  | nil => simp
  | cons n rest ih => simp [ih, add_assoc]

lemma idwWeight_pos (d2 : ℚ) : 0 < idwWeight d2 := by
  have h9 : (0 : ℚ) < max d2 9 := lt_of_lt_of_le (by norm_num) (le_max_right d2 9)
  have : (0 : ℚ) < max d2 9 ^ (power / 2) := pow_pos h9 _
  exact div_pos one_pos this

lemma idwSums_fst_pos {ns : List Neighbor} (h : ns ≠ []) : 0 < (idwSums ns).1 := by
  rw [idwSums, idwSums_fst, zero_add]
  refine List.sum_pos _ ?_ (by simpa using h)
  intro w hw
  obtain ⟨n, _, rfl⟩ := List.mem_map.mp hw
  exact idwWeight_pos n.d2

/-- `C2`: for every grid node of the scalar interpolator, if fewer than 3
input points lie within the 200px search radius the node holds the "no data"
sentinel; otherwise its value is the inverse-distance-weighted mean
(weights `1 / max(d², 9)^(power/2)`, `power = 2`) over the up-to-`kMax = 10`
nearest in-radius points — the bounded insertion list equals the first ten
entries of the distance-sorted in-radius list, which dominate all dropped
entries; and a field with fewer than 3 input points computes no grid at
all. -/
theorem idw_interpolation_spec (pts : List ObsPt) (gx gy : ℚ) (nx ny : ℕ) (step : ℚ) :
    (pts.length < 3 → scalarGrid pts nx ny step = none) ∧
    ((inRadius pts gx gy).length < 3 → nodeValue pts gx gy = none) ∧
    (3 ≤ (inRadius pts gx gy).length →
      nodeValue pts gx gy =
        some ((idwSums (nearestNeighbors pts gx gy)).2 /
            (idwSums (nearestNeighbors pts gx gy)).1)) ∧
    (idwSums (nearestNeighbors pts gx gy)).1 =
      ((nearestNeighbors pts gx gy).map fun n => idwWeight n.d2).sum ∧
    (idwSums (nearestNeighbors pts gx gy)).2 =
      ((nearestNeighbors pts gx gy).map fun n => idwWeight n.d2 * n.val).sum ∧
    (nearestNeighbors pts gx gy).length = min kMax (inRadius pts gx gy).length ∧
    (∀ n ∈ nearestNeighbors pts gx gy, n.d2 ≤ maxRadius2) ∧
    (nearestNeighbors pts gx gy).Pairwise (fun a b => a.d2 ≤ b.d2) ∧
    List.Perm
      (nearestNeighbors pts gx gy ++ (sortByD2 (inRadiusNeighbors pts gx gy)).drop kMax)
      (inRadiusNeighbors pts gx gy) ∧
    ∀ a ∈ nearestNeighbors pts gx gy,
      ∀ b ∈ (sortByD2 (inRadiusNeighbors pts gx gy)).drop kMax, a.d2 ≤ b.d2 := by
  have hperm : List.Perm (sortByD2 (inRadiusNeighbors pts gx gy))
      (inRadiusNeighbors pts gx gy) := sortByD2_perm _
  have hsortlen : (sortByD2 (inRadiusNeighbors pts gx gy)).length =
      (inRadius pts gx gy).length := by
    rw [hperm.length_eq, inRadiusNeighbors, List.length_map]
  have hlen : (nearestNeighbors pts gx gy).length = min kMax (inRadius pts gx gy).length := by
    rw [nearestNeighbors, List.length_take, hsortlen]
  have hpair := sortByD2_pairwise (inRadiusNeighbors pts gx gy)
  have hsplit := List.take_append_drop kMax (sortByD2 (inRadiusNeighbors pts gx gy))
  have hcross : ∀ a ∈ nearestNeighbors pts gx gy,
      ∀ b ∈ (sortByD2 (inRadiusNeighbors pts gx gy)).drop kMax, a.d2 ≤ b.d2 := by
    have := hpair
    rw [← hsplit, List.pairwise_append] at this
    exact this.2.2
  refine ⟨?_, ?_, ?_, by rw [idwSums, idwSums_fst, zero_add],
    by rw [idwSums, idwSums_snd, zero_add], hlen, ?_, ?_, ?_, hcross⟩
  · intro h
    rw [scalarGrid, if_pos h]
  · intro h
    have hl3 : (nearestNeighbors pts gx gy).length < 3 := by
      rw [hlen]
      exact lt_of_le_of_lt (min_le_right _ _) h
    simp only [nodeValue, collectNeighbors_eq_nearest, if_pos hl3]
  · intro h
    have hge : ¬ (nearestNeighbors pts gx gy).length < 3 := by
      rw [hlen]
      exact not_lt.mpr (le_min (by norm_num [kMax]) h)
    have hne : nearestNeighbors pts gx gy ≠ [] := by
      have h3 := not_lt.mp hge
      exact List.ne_nil_of_length_pos (by omega)
    simp only [nodeValue, collectNeighbors_eq_nearest, if_neg hge,
      if_neg (not_le.mpr (idwSums_fst_pos hne))]
  · intro n hn
    have hmem : n ∈ inRadiusNeighbors pts gx gy :=
      hperm.mem_iff.mp (List.mem_of_mem_take hn)
    obtain ⟨p, hp, rfl⟩ := List.mem_map.mp hmem
    exact of_decide_eq_true (List.mem_filter.mp hp).2
  · exact List.Pairwise.sublist (List.take_sublist _ _) hpair
  · have : nearestNeighbors pts gx gy = (sortByD2 (inRadiusNeighbors pts gx gy)).take kMax :=
      rfl
    rw [this, hsplit]
    exact hperm

/-- Witness for `idw_interpolation_spec`: a node at `(0,0)` with exactly
three in-radius points at squared distances 0, 9 and 16 gets the weighted
mean `750/41`. -/
theorem idw_interpolation_spec_witness :
    3 ≤ (inRadius [⟨0, 0, 10⟩, ⟨3, 0, 20⟩, ⟨0, 4, 30⟩] 0 0).length ∧
      nodeValue [⟨0, 0, 10⟩, ⟨3, 0, 20⟩, ⟨0, 4, 30⟩] 0 0 = some (750 / 41) := by
  have hc : 3 ≤ (inRadius [⟨0, 0, 10⟩, ⟨3, 0, 20⟩, ⟨0, 4, 30⟩] 0 0).length := by
    norm_num [inRadius, sqDist, maxRadius2, maxRadius, List.filter]
  refine ⟨hc, ?_⟩
  have h := (idw_interpolation_spec [⟨0, 0, 10⟩, ⟨3, 0, 20⟩, ⟨0, 4, 30⟩] 0 0 1 1 24).2.2.1 hc
  rw [h]
  norm_num [nearestNeighbors, sortByD2, inRadiusNeighbors, inRadius, insertNeighbor,
    idwSums, idwWeight, sqDist, maxRadius2, maxRadius, kMax, power, List.filter]

/-! ## Level Selector (the level-building block of `drawOne`) -/

/-- The temperature unit preference (`type TempUnit = "F" | "C"`). -/
inductive TempUnit
  | F
  | C
  deriving Repr, DecidableEq

/-- The `for (let v = start; v <= end; v += interval)` level loop of
`drawOne`, rendered as an indexed map (the loop is only entered with a
positive interval). -/
def levelRange (start endV interval : ℚ) : List ℚ :=
  if 0 < interval ∧ start ≤ endV then
    (List.range ((⌊(endV - start) / interval⌋).toNat + 1)).map
      fun k : ℕ => start + (k : ℚ) * interval
  else []


/-- `interval = tempUnit === "F" ? 5 : 2` (also the dewpoint `dpStep`). -/
def tempInterval : TempUnit → ℚ
  | TempUnit.F => 5
  | TempUnit.C => 2

/-- Temperature levels: the `interval` ladder from
`Math.floor(minV/interval)*interval` to `Math.ceil(maxV/interval)*interval`. -/
def tempLevels (u : TempUnit) (minV maxV : ℚ) : List ℚ :=
  levelRange (⌊minV / tempInterval u⌋ * tempInterval u)
    (⌈maxV / tempInterval u⌉ * tempInterval u) (tempInterval u)

/-- `dpThreshold = tempUnit === "F" ? 45 : 8` (dewpoint visibility floor). -/
def dpThreshold : TempUnit → ℚ
  | TempUnit.F => 45
  | TempUnit.C => 8

/-- Dewpoint levels: the same `dpStep` ladder, but a level is pushed only
`if (v >= dpThreshold)`. -/
def dewpointLevels (u : TempUnit) (minV maxV : ℚ) : List ℚ :=
  (levelRange (⌊minV / tempInterval u⌋ * tempInterval u)
      (⌈maxV / tempInterval u⌉ * tempInterval u) (tempInterval u)).filter
    fun v => dpThreshold u ≤ v

/-- Isobar levels: `base + k*stepMb` for integer `k` running from
`kStart = Math.floor((minV-base)/stepMb)` to
`kEnd = Math.ceil((maxV-base)/stepMb)`, with `base = 1000`, `stepMb = 4`. -/
def slpLevels (minV maxV : ℚ) : List ℚ :=
  let base : ℚ := 1000
  let stepMb : ℚ := 4
  let kStart := ⌊(minV - base) / stepMb⌋
  let kEnd := ⌈(maxV - base) / stepMb⌉
  if kStart ≤ kEnd then
    (List.range ((kEnd - kStart).toNat + 1)).map
      fun n : ℕ => base + ((kStart + (n : ℤ) : ℤ) : ℚ) * stepMb
  else []

lemma floor_le_ceil_of_le {a b iv : ℚ} (hiv : 0 < iv) (hab : a ≤ b) :
    ⌊a / iv⌋ ≤ ⌈b / iv⌉ := by
  have h1 : (⌊a / iv⌋ : ℚ) ≤ a / iv := Int.floor_le _
  have h2 : a / iv ≤ b / iv := by gcongr
  have h3 : b / iv ≤ (⌈b / iv⌉ : ℚ) := Int.le_ceil _
  exact_mod_cast h1.trans (h2.trans h3)

/-- The level loop between the floor- and ceiling-anchored endpoints is the
integer ladder between the floor and ceiling indices. -/
lemma levelRange_floor_ceil (a b iv : ℚ) (hiv : 0 < iv) (hab : a ≤ b) :
    levelRange (⌊a / iv⌋ * iv) (⌈b / iv⌉ * iv) iv =
      (List.range ((⌈b / iv⌉ - ⌊a / iv⌋).toNat + 1)).map
        fun k : ℕ => ((⌊a / iv⌋ + (k : ℤ) : ℤ) : ℚ) * iv := by
  have hle : ⌊a / iv⌋ ≤ ⌈b / iv⌉ := floor_le_ceil_of_le hiv hab
  have hstart : (⌊a / iv⌋ : ℚ) * iv ≤ (⌈b / iv⌉ : ℚ) * iv :=
    mul_le_mul_of_nonneg_right (by exact_mod_cast hle) hiv.le
  have hdiff : ((⌈b / iv⌉ : ℚ) * iv - (⌊a / iv⌋ : ℚ) * iv) / iv =
      ((⌈b / iv⌉ - ⌊a / iv⌋ : ℤ) : ℚ) := by
    rw [← sub_mul, mul_div_assoc, div_self hiv.ne', mul_one]
    push_cast
    ring
  rw [levelRange, if_pos ⟨hiv, hstart⟩, hdiff, Int.floor_intCast]
  refine List.map_congr_left fun k _ => ?_
  push_cast
  ring

lemma floor_mul_le (a iv : ℚ) (hiv : 0 < iv) : (⌊a / iv⌋ : ℚ) * iv ≤ a :=
  (le_div_iff₀ hiv).mp (Int.floor_le _)

lemma le_ceil_mul (b iv : ℚ) (hiv : 0 < iv) : b ≤ (⌈b / iv⌉ : ℚ) * iv :=
  (div_le_iff₀ hiv).mp (Int.le_ceil _)

/-- `C5` counterexample: dewpoint field, unit °F, grid minimum 40 and
maximum 50 — the generated level list is `[45, 50]`, whose smallest level
45 is not ≤ the grid minimum 40 (levels below the 45°F visibility threshold
are dropped). -/
theorem dewpoint_bracket_counterexample :
    dewpointLevels TempUnit.F 40 50 = [45, 50] ∧
      ∀ l ∈ dewpointLevels TempUnit.F 40 50, ¬l ≤ 40 := by
  have h : dewpointLevels TempUnit.F 40 50 = [45, 50] := by
    rw [dewpointLevels, tempInterval, dpThreshold,
      show ⌊((40 : ℚ)) / 5⌋ = 8 by norm_num, show ⌈((50 : ℚ)) / 5⌉ = 10 by norm_num,
      levelRange]
    norm_num
    rw [show ((2 : ℤ)).toNat = 2 from rfl]
    norm_num [List.range_succ, List.filter]
  refine ⟨h, ?_⟩
  rw [h]
  intro l hl
  rcases List.mem_cons.mp hl with rfl | hl
  · norm_num
  · rcases List.mem_cons.mp hl with rfl | hl
    · norm_num
    · simp at hl

/-- `C5` (amended): for a grid with finite minimum ≤ maximum, the
temperature and pressure level lists fully bracket `[min, max]`; the
dewpoint list keeps only levels at or above the visibility threshold
(45°F / 8°C), so whenever it is nonempty its largest level is still ≥ the
grid maximum but its smallest level is only ≤ `max min threshold`, not
necessarily ≤ the grid minimum. -/
theorem level_lists_bracket (u : TempUnit) (minV maxV : ℚ) (h : minV ≤ maxV) :
    ((∃ l ∈ tempLevels u minV maxV, l ≤ minV) ∧
      (∃ l ∈ tempLevels u minV maxV, maxV ≤ l)) ∧
    ((∃ l ∈ slpLevels minV maxV, l ≤ minV) ∧ (∃ l ∈ slpLevels minV maxV, maxV ≤ l)) ∧
    (dewpointLevels u minV maxV ≠ [] →
      (∃ l ∈ dewpointLevels u minV maxV, maxV ≤ l) ∧
      ∃ l ∈ dewpointLevels u minV maxV, l ≤ max minV (dpThreshold u)) := by
  have hiv : 0 < tempInterval u := by cases u <;> norm_num [tempInterval]
  have hbase := levelRange_floor_ceil minV maxV (tempInterval u) hiv h
  have hle := floor_le_ceil_of_le hiv h
  have hmem : ∀ n : ℤ, ⌊minV / tempInterval u⌋ ≤ n → n ≤ ⌈maxV / tempInterval u⌉ →
      ((n : ℚ) * tempInterval u) ∈ tempLevels u minV maxV := by
    intro n hn1 hn2
    rw [tempLevels, hbase]
    refine List.mem_map.mpr ⟨(n - ⌊minV / tempInterval u⌋).toNat, List.mem_range.mpr ?_, ?_⟩
    · omega
    · rw [show (⌊minV / tempInterval u⌋ + ((n - ⌊minV / tempInterval u⌋).toNat : ℤ)) = n by
        omega]
  have htop : ∀ l ∈ tempLevels u minV maxV,
      l ≤ (⌈maxV / tempInterval u⌉ : ℚ) * tempInterval u := by
    intro l hl
    rw [tempLevels, hbase] at hl
    obtain ⟨k, hk, rfl⟩ := List.mem_map.mp hl
    have hk' : (⌊minV / tempInterval u⌋ + (k : ℤ)) ≤ ⌈maxV / tempInterval u⌉ := by
      have := List.mem_range.mp hk
      omega
    exact mul_le_mul_of_nonneg_right (by exact_mod_cast hk') hiv.le
  refine ⟨⟨⟨_, hmem _ le_rfl hle, floor_mul_le minV _ hiv⟩,
      ⟨_, hmem _ hle le_rfl, le_ceil_mul maxV _ hiv⟩⟩, ?_, ?_⟩
  · -- isobars
    have h4 : (0 : ℚ) < 4 := by norm_num
    have hks := floor_le_ceil_of_le h4 (by linarith : minV - 1000 ≤ maxV - 1000)
    have hSL : slpLevels minV maxV =
        (List.range ((⌈(maxV - 1000) / 4⌉ - ⌊(minV - 1000) / 4⌋).toNat + 1)).map
          fun n : ℕ => 1000 + ((⌊(minV - 1000) / 4⌋ + (n : ℤ) : ℤ) : ℚ) * 4 := by
      simp only [slpLevels]
      rw [if_pos hks]
    have hmemS : ∀ n : ℤ, ⌊(minV - 1000) / 4⌋ ≤ n → n ≤ ⌈(maxV - 1000) / 4⌉ →
        (1000 + (n : ℚ) * 4) ∈ slpLevels minV maxV := by
      intro n hn1 hn2
      rw [hSL]
      refine List.mem_map.mpr ⟨(n - ⌊(minV - 1000) / 4⌋).toNat, List.mem_range.mpr ?_, ?_⟩
      · omega
      · rw [show (⌊(minV - 1000) / 4⌋ + ((n - ⌊(minV - 1000) / 4⌋).toNat : ℤ)) = n by omega]
    constructor
    · refine ⟨_, hmemS _ le_rfl hks, ?_⟩
      have := floor_mul_le (minV - 1000) 4 h4
      linarith
    · refine ⟨_, hmemS _ hks le_rfl, ?_⟩
      have := le_ceil_mul (maxV - 1000) 4 h4
      linarith
  · -- dewpoint
    intro hne
    have hDL : dewpointLevels u minV maxV =
        (tempLevels u minV maxV).filter fun v => dpThreshold u ≤ v := rfl
    obtain ⟨v, hv⟩ := List.exists_mem_of_ne_nil _ hne
    rw [hDL, List.mem_filter, decide_eq_true_eq] at hv
    obtain ⟨hvmem, hvthr⟩ := hv
    have hthr_top : dpThreshold u ≤ (⌈maxV / tempInterval u⌉ : ℚ) * tempInterval u :=
      hvthr.trans (htop v hvmem)
    have htopmem :
        (⌈maxV / tempInterval u⌉ : ℚ) * tempInterval u ∈ dewpointLevels u minV maxV := by
      rw [hDL, List.mem_filter, decide_eq_true_eq]
      exact ⟨hmem _ hle le_rfl, hthr_top⟩
    refine ⟨⟨_, htopmem, le_ceil_mul maxV _ hiv⟩, ?_⟩
    by_cases hts : dpThreshold u ≤ (⌊minV / tempInterval u⌋ : ℚ) * tempInterval u
    · refine ⟨(⌊minV / tempInterval u⌋ : ℚ) * tempInterval u, ?_, ?_⟩
      · rw [hDL, List.mem_filter, decide_eq_true_eq]
        exact ⟨hmem _ le_rfl hle, hts⟩
      · exact le_max_of_le_left (floor_mul_le minV _ hiv)
    · -- the threshold itself lies on the step ladder
      obtain ⟨t, ht⟩ : ∃ t : ℤ, dpThreshold u = (t : ℚ) * tempInterval u := by
        cases u
        · exact ⟨9, by norm_num [dpThreshold, tempInterval]⟩
        · exact ⟨4, by norm_num [dpThreshold, tempInterval]⟩
      have hi0t : ⌊minV / tempInterval u⌋ < t := by
        have hq : (⌊minV / tempInterval u⌋ : ℚ) * tempInterval u < (t : ℚ) * tempInterval u := by
          rw [← ht]
          exact not_le.mp hts
        exact_mod_cast lt_of_mul_lt_mul_right hq hiv.le
      have hti1 : t ≤ ⌈maxV / tempInterval u⌉ := by
        have hq : (t : ℚ) * tempInterval u ≤ (⌈maxV / tempInterval u⌉ : ℚ) * tempInterval u := by
          rw [← ht]
          exact hthr_top
        exact_mod_cast le_of_mul_le_mul_right hq hiv
      refine ⟨dpThreshold u, ?_, le_max_of_le_right le_rfl⟩
      rw [hDL, List.mem_filter, decide_eq_true_eq]
      refine ⟨?_, le_rfl⟩
      rw [ht]
      exact hmem t hi0t.le hti1

/-- Witness for `level_lists_bracket` at unit °F, `minV = 40`, `maxV = 50`. -/
theorem level_lists_bracket_witness :
    ((∃ l ∈ tempLevels TempUnit.F 40 50, l ≤ 40) ∧
      (∃ l ∈ tempLevels TempUnit.F 40 50, (50 : ℚ) ≤ l)) ∧
    ((∃ l ∈ slpLevels 40 50, l ≤ 40) ∧ (∃ l ∈ slpLevels 40 50, (50 : ℚ) ≤ l)) ∧
    (dewpointLevels TempUnit.F 40 50 ≠ [] →
      (∃ l ∈ dewpointLevels TempUnit.F 40 50, (50 : ℚ) ≤ l) ∧
      ∃ l ∈ dewpointLevels TempUnit.F 40 50, l ≤ max 40 (dpThreshold TempUnit.F)) :=
  level_lists_bracket TempUnit.F 40 50 (by norm_num)

/-! ## Decluttering Filter (`thinByPixelGrid`, `declutteredObs`) -/

/-- The spatial bucket key of a projected point:
`(Math.floor(p.x / cellSizePx), Math.floor(p.y / cellSizePx))` (the code's
template-string key `a:b` is injective in this integer pair). -/
def bucketKey (p : Pt) (cell : ℚ) : ℤ × ℤ := (⌊p.x / cell⌋, ⌊p.y / cell⌋)

/-- The station loop of `thinByPixelGrid` with its `seen` key set: keep an
observation only if its bucket has not been seen yet this pass. -/
def thinGo {α : Type} (proj : α → Pt) (cell : ℚ) (seen : Finset (ℤ × ℤ)) :
    List α → List α
  | [] => []
  | s :: rest =>
    let key := bucketKey (proj s) cell
    if key ∈ seen then thinGo proj cell seen rest
    else s :: thinGo proj cell (insert key seen) rest

/-- `thinByPixelGrid(stations, map, cellSizePx)` with the projector
`map.project` abstracted to a total function. -/
def thinByPixelGrid {α : Type} (stations : List α) (proj : α → Pt) (cell : ℚ) : List α :=
  thinGo proj cell ∅ stations

/-- The zoom-band base bucket size of `declutteredObs`:
`z < 4 → 30, z < 6 → 22, z < 8 → 15, z < 10 → 10, else 0`. -/
def baseCell (z : ℚ) : ℚ :=
  if z < 4 then 30 else if z < 6 then 22 else if z < 8 then 15 else if z < 10 then 10 else 0

/-- JavaScript `Math.round` (halves round toward `+∞`). -/
def jsRound (x : ℚ) : ℤ := ⌊x + 1 / 2⌋

/-- `declutteredObs`: the full set when the map is unavailable
(`if (!map) return obs`) or the zoom band turns thinning off
(`if (baseCell === 0) return obs`); otherwise thin by
`cell = Math.max(6, Math.round(baseCell * densityMultiplier))`. -/
def declutteredObs {α : Type} (projOfMap : Option (α → Pt)) (zoom densityMultiplier : ℚ)
    (obs : List α) : List α :=
  match projOfMap with
  | none => obs
  | some proj =>
    if baseCell zoom = 0 then obs
    else thinByPixelGrid obs proj (max 6 ((jsRound (baseCell zoom * densityMultiplier) : ℚ)))

lemma thinGo_sublist {α : Type} (proj : α → Pt) (cell : ℚ) :
    ∀ (l : List α) (seen : Finset (ℤ × ℤ)), (thinGo proj cell seen l).Sublist l := by
  intro l
  induction l with
  | nil => intro seen; simp [thinGo]
  | cons s rest ih =>
    intro seen
    rw [thinGo]
    by_cases h : bucketKey (proj s) cell ∈ seen
    · simp only [if_pos h]
      exact (ih seen).cons s
    · simp only [if_neg h]
      exact (ih _).cons₂ s

/-- In the output of the thinning loop, the observations mapping to bucket
`b` are: none if `b` was already seen, else exactly the first observation of
the input that maps to `b`. -/
lemma thinGo_filter_key {α : Type} (proj : α → Pt) (cell : ℚ) (b : ℤ × ℤ) :
    ∀ (l : List α) (seen : Finset (ℤ × ℤ)),
      (thinGo proj cell seen l).filter (fun s => bucketKey (proj s) cell = b) =
        if b ∈ seen then []
        else (l.filter fun s => bucketKey (proj s) cell = b).take 1 := by
  intro l
  induction l with
  | nil =>
    intro seen
    by_cases h : b ∈ seen <;> simp [thinGo, h]
  | cons s rest ih =>
    intro seen
    rw [thinGo]
    by_cases hk : bucketKey (proj s) cell ∈ seen
    · rw [if_pos hk, ih seen]
      by_cases hb : b ∈ seen
      · rw [if_pos hb, if_pos hb]
      · have hne : ¬bucketKey (proj s) cell = b := fun he => hb (he ▸ hk)
        rw [if_neg hb, if_neg hb, List.filter_cons_of_neg (by simpa using hne)]
    · rw [if_neg hk]
      by_cases hsb : bucketKey (proj s) cell = b
      · have hb : b ∉ seen := fun hm => hk (hsb ▸ hm)
        rw [if_neg hb, List.filter_cons_of_pos (by simpa using hsb),
          List.filter_cons_of_pos (by simpa using hsb), ih, if_pos (by simp [← hsb])]
        simp
      · rw [List.filter_cons_of_neg (by simpa using hsb),
          List.filter_cons_of_neg (by simpa using hsb), ih]
        by_cases hb : b ∈ seen
        · rw [if_pos hb, if_pos (Finset.mem_insert_of_mem hb)]
        · rw [if_neg hb, if_neg (by
            simp only [Finset.mem_insert, not_or]
            exact ⟨fun he => hsb he.symm, hb⟩)]

/-- `C6`: the decluttered set is an order-preserving subsequence of the
input; for every bucket key, the output contains exactly the first input
observation of that bucket (hence at most one per bucket); and the full
input is returned unchanged when the map projector is unavailable or when
the zoom band gives base cell 0 (zoom ≥ 10). -/
theorem declutter_spec {α : Type} (obs : List α) (proj : α → Pt) (cell zoom mult : ℚ) :
    (thinByPixelGrid obs proj cell).Sublist obs ∧
    (∀ b : ℤ × ℤ,
      (thinByPixelGrid obs proj cell).filter (fun s => bucketKey (proj s) cell = b) =
        (obs.filter fun s => bucketKey (proj s) cell = b).take 1) ∧
    declutteredObs (none : Option (α → Pt)) zoom mult obs = obs ∧
    (10 ≤ zoom → declutteredObs (some proj) zoom mult obs = obs) := by
  refine ⟨thinGo_sublist proj cell obs ∅, ?_, rfl, ?_⟩
  · intro b
    rw [thinByPixelGrid, thinGo_filter_key, if_neg (Finset.not_mem_empty b)]
  · intro hz
    have h0 : baseCell zoom = 0 := by
      rw [baseCell, if_neg (by linarith), if_neg (by linarith), if_neg (by linarith),
        if_neg (by linarith)]
    rw [declutteredObs, if_pos h0]

/-- Witness for `declutter_spec`: at zoom 12 (≥ 10) the observation list is
returned unchanged. -/
theorem declutter_spec_witness :
    (10 : ℚ) ≤ 12 ∧
      declutteredObs (some fun n : ℕ => Pt.mk (n : ℚ) 0) 12 2 [0, 1] = [0, 1] :=
  ⟨by norm_num,
    (declutter_spec [0, 1] (fun n : ℕ => Pt.mk (n : ℚ) 0) 6 12 2).2.2.2 (by norm_num)⟩

/-! ## Projection failures (`thinByPixelGrid` vs. `drawStationPlots`) -/

/-- The body of `thinByPixelGrid` under a projector that may throw.  The
loop has no per-observation `try`/`catch`, so a projection failure
propagates out of the whole call. -/
def thinGoThrow {α : Type} (proj : α → Except Unit Pt) (cell : ℚ) (seen : Finset (ℤ × ℤ)) :
    List α → Except Unit (List α)
  | [] => .ok []
  | s :: rest =>
    match proj s with
    | .error e => .error e
    | .ok p =>
      let key := bucketKey p cell
      if key ∈ seen then thinGoThrow proj cell seen rest
      else (thinGoThrow proj cell (insert key seen) rest).map (s :: ·)

/-- `thinByPixelGrid` with exception semantics for `map.project`. -/
def thinByPixelGridThrow {α : Type} (stations : List α) (proj : α → Except Unit Pt)
    (cell : ℚ) : Except Unit (List α) :=
  thinGoThrow proj cell ∅ stations

/-- The viewport cull of `drawStationPlots`:
`point.x < -50 || point.x > width + 50 || point.y < -50 || point.y > height + 50`. -/
def outsideViewport (p : Pt) (width height : ℚ) : Prop :=
  p.x < -50 ∨ width + 50 < p.x ∨ p.y < -50 ∨ height + 50 < p.y

instance (p : Pt) (width height : ℚ) : Decidable (outsideViewport p width height) := by
  rw [outsideViewport]
  infer_instance

/-- The station loop of `drawStationPlots`: each station's body runs inside
`try { ... } catch { continue }`, so a projection failure (like the viewport
cull) skips just that station and the loop continues.  Returns the stations
actually drawn, with their projected pixel positions. -/
def drawStationPlotsProcessed {α : Type} (proj : α → Except Unit Pt) (width height : ℚ) :
    List α → List (α × Pt)
  | [] => []
  | s :: rest =>
    match proj s with
    | .error _ => drawStationPlotsProcessed proj width height rest
    | .ok p =>
      if outsideViewport p width height then drawStationPlotsProcessed proj width height rest
      else (s, p) :: drawStationPlotsProcessed proj width height rest

/-- A projector that throws on station `0` and projects every other station
to the origin. -/
def failFirstProj : ℕ → Except Unit Pt :=
  fun n => if n = 0 then .error () else .ok ⟨0, 0⟩

/-- `C7` counterexample: in `thinByPixelGrid` a projection failure on the
first of two observations makes the whole call throw — the result is the
propagated error, not the one-station list `[1]` the claim's "every
remaining observation is still processed" would give. -/
theorem declutter_projection_throw_counterexample :
    thinByPixelGridThrow [0, 1] failFirstProj 6 = .error () ∧
      thinByPixelGridThrow [0, 1] failFirstProj 6 ≠ .ok [1] := by
  have h : thinByPixelGridThrow [0, 1] failFirstProj 6 = .error () := by
    rw [thinByPixelGridThrow, thinGoThrow, show failFirstProj 0 = .error () from rfl]
  exact ⟨h, by rw [h]; exact fun hc => Except.noConfusion hc⟩

/-- `C7` (amended): during station-plot drawing a projection failure skips
only the failing observation — the remaining batch is processed exactly as
if it were absent — but during decluttering `thinByPixelGrid` has no
per-observation catch: a projection failure makes the whole thinning pass
throw. -/
theorem projection_failure_handling {α : Type} (proj : α → Except Unit Pt)
    (cell width height : ℚ) (s : α) (rest : List α) (hs : proj s = .error ()) :
    thinByPixelGridThrow (s :: rest) proj cell = .error () ∧
      drawStationPlotsProcessed proj width height (s :: rest) =
        drawStationPlotsProcessed proj width height rest := by
  constructor
  · rw [thinByPixelGridThrow, thinGoThrow, hs]
  · rw [drawStationPlotsProcessed, hs]

/-- Witness for `projection_failure_handling` on the two-station example. -/
theorem projection_failure_handling_witness :
    failFirstProj 0 = .error () ∧
      thinByPixelGridThrow [0, 1] failFirstProj 6 = .error () ∧
      drawStationPlotsProcessed failFirstProj 100 100 [0, 1] =
        drawStationPlotsProcessed failFirstProj 100 100 [1] :=
  ⟨rfl,
    (projection_failure_handling failFirstProj 6 100 100 0 [1] rfl).1,
    (projection_failure_handling failFirstProj 6 100 100 0 [1] rfl).2⟩

/-! ## Label Placer (`labelContours`) -/

/-- `maxLabels = 5`. -/
def maxLabels : ℕ := 5

/-- `minLen = 30` (px). -/
def minLen : ℚ := 30

/-- A label candidate `{ a, b, len }` of `labelContours`.  The chord length
`len = Math.hypot(b.x - a.x, b.y - a.y)` is carried as its exact square
`len2`: `hypot` is strictly monotone in it, so the code's `len >= minLen`
test is `len2 ≥ minLen²` and descending sort by `len` is descending sort by
`len2`. -/
structure Cand where
  a : Pt
  b : Pt
  len2 : ℚ
  deriving Repr, DecidableEq

/-- The candidate built from one segment: skip segments with fewer than two
points, take the two endpoints `seg[0]` and `seg[seg.length - 1]`, and keep
the chord only if `len >= minLen`. -/
def candOf (seg : List Pt) : Option Cand :=
  if seg.length < 2 then none
  else
    match seg.head?, seg.getLast? with
    | some a, some b =>
      let len2 := (b.x - a.x) * (b.x - a.x) + (b.y - a.y) * (b.y - a.y)
      if minLen * minLen ≤ len2 then some ⟨a, b, len2⟩ else none
    | _, _ => none

/-- The candidate-building loop over one level's segment list. -/
def candidatesOf (segments : List (List Pt)) : List Cand :=
  segments.filterMap candOf

/-- One step of the stable descending sort
`candidates.sort((a, b) => b.len - a.len)`: a candidate is placed before the
first strictly shorter one, so equal lengths keep their input order. -/
def insertCandDesc (c : Cand) : List Cand → List Cand
  | [] => [c]
  | d :: rest => if d.len2 < c.len2 then c :: d :: rest else d :: insertCandDesc c rest

/-- Stable descending sort of the candidates by chord length. -/
def sortCandDesc (l : List Cand) : List Cand :=
  l.foldl (fun acc c => insertCandDesc c acc) []

/-- The candidates actually labelled: the loop
`for (i = 0; i < candidates.length && i < maxLabels; i++)` after the sort. -/
def selectedCands (segments : List (List Pt)) : List Cand :=
  (sortCandDesc (candidatesOf segments)).take maxLabels

/-- One placed label: midpoint `((a.x+b.x)/2, (a.y+b.y)/2)` plus the chord
endpoints the rotation angle is computed from. -/
structure LabelPlace where
  mx : ℚ
  my : ℚ
  a : Pt
  b : Pt
  deriving Repr, DecidableEq

/-- The labels `labelContours` draws for one level's segment list. -/
def labelPlacements (segments : List (List Pt)) : List LabelPlace :=
  (selectedCands segments).map fun c => ⟨(c.a.x + c.b.x) / 2, (c.a.y + c.b.y) / 2, c.a, c.b⟩

/-- The two sequential `if`s normalizing the label rotation angle
(`if (angle > Math.PI/2) angle -= Math.PI; else if (angle < -Math.PI/2)
angle += Math.PI;`), as an input/output relation on real angles (the input
is `Math.atan2(dy, dx)`, i.e. the complex argument of `dx + i·dy`). -/
def NormalizedTo (θ θ' : ℝ) : Prop :=
  (Real.pi / 2 < θ ∧ θ' = θ - Real.pi) ∨
    (¬Real.pi / 2 < θ ∧ θ < -(Real.pi / 2) ∧ θ' = θ + Real.pi) ∨
    (¬Real.pi / 2 < θ ∧ ¬θ < -(Real.pi / 2) ∧ θ' = θ)

lemma mem_insertCandDesc {x c : Cand} {l : List Cand} :
    x ∈ insertCandDesc c l ↔ x = c ∨ x ∈ l := by
  induction l with
  | nil => simp [insertCandDesc]
  | cons d rest ih =>
    by_cases h : d.len2 < c.len2
    · simp only [insertCandDesc, if_pos h, List.mem_cons]
    · simp only [insertCandDesc, if_neg h, List.mem_cons, ih]
      tauto

lemma pairwise_insertCandDesc {l : List Cand} {c : Cand}
    (hl : l.Pairwise fun a b => b.len2 ≤ a.len2) :
    (insertCandDesc c l).Pairwise fun a b => b.len2 ≤ a.len2 := by
  induction l with
  | nil => simp [insertCandDesc]
  | cons d rest ih =>
    rw [List.pairwise_cons] at hl
    by_cases h : d.len2 < c.len2
    · rw [show insertCandDesc c (d :: rest) = c :: d :: rest by simp [insertCandDesc, h]]
      rw [List.pairwise_cons]
      refine ⟨?_, List.pairwise_cons.mpr hl⟩
      intro x hx
      rcases List.mem_cons.mp hx with rfl | hx
      · exact h.le
      · exact (hl.1 x hx).trans h.le
    · rw [show insertCandDesc c (d :: rest) = d :: insertCandDesc c rest by
          simp [insertCandDesc, h]]
      rw [List.pairwise_cons]
      refine ⟨?_, ih hl.2⟩
      intro x hx
      rcases mem_insertCandDesc.mp hx with rfl | hx
      · exact not_lt.mp h
      · exact hl.1 x hx

lemma perm_insertCandDesc (c : Cand) (l : List Cand) :
    List.Perm (insertCandDesc c l) (c :: l) := by
  induction l with
  | nil => simp [insertCandDesc]
  | cons d rest ih =>
    by_cases h : d.len2 < c.len2
    · rw [show insertCandDesc c (d :: rest) = c :: d :: rest by simp [insertCandDesc, h]]
    · rw [show insertCandDesc c (d :: rest) = d :: insertCandDesc c rest by
          simp [insertCandDesc, h]]
      exact (List.Perm.cons d ih).trans (List.Perm.swap c d rest)

lemma sortCandDesc_pairwise (l : List Cand) :
    (sortCandDesc l).Pairwise fun a b => b.len2 ≤ a.len2 := by
  have key : ∀ (l acc : List Cand), acc.Pairwise (fun a b => b.len2 ≤ a.len2) →
      (l.foldl (fun acc c => insertCandDesc c acc) acc).Pairwise
        fun a b => b.len2 ≤ a.len2 := by
    intro l
    induction l with
    | nil => intro acc h; exact h
    | cons c rest ih => intro acc h; exact ih _ (pairwise_insertCandDesc h)
  exact key l [] List.Pairwise.nil

lemma sortCandDesc_perm (l : List Cand) : List.Perm (sortCandDesc l) l := by
  have key : ∀ (l acc : List Cand),
      List.Perm (l.foldl (fun acc c => insertCandDesc c acc) acc) (acc ++ l) := by
    intro l
    induction l with
    | nil => intro acc; simp
    | cons c rest ih =>
      intro acc
      refine (ih (insertCandDesc c acc)).trans ?_
      refine (List.Perm.append_right rest (perm_insertCandDesc c acc)).trans ?_
      exact List.perm_middle.symm
  simpa using key l []

/-- Angles in `(-π, π]` normalized by the code's two `if`s land in the
closed interval `[-π/2, π/2]`. -/
lemma normalizedTo_range {θ θ' : ℝ} (h1 : -Real.pi < θ) (h2 : θ ≤ Real.pi)
    (h : NormalizedTo θ θ') : -(Real.pi / 2) ≤ θ' ∧ θ' ≤ Real.pi / 2 := by
  have hpi := Real.pi_pos
  rcases h with ⟨hg, rfl⟩ | ⟨hng, hl, rfl⟩ | ⟨hng, hnl, rfl⟩
  · constructor <;> linarith
  · constructor <;> linarith
  · rw [not_lt] at hng hnl
    constructor <;> linarith

/-- `C8` counterexample: the single segment from `(0, 30)` straight down to
`(0, 0)` has chord length exactly 30 and is labelled; its chord angle is
`atan2(-30, 0) = -π/2`, which both `if`s leave unchanged — so the rotation
angle is `-90°`, which is not in the claimed half-open interval
`(-90°, 90°]`. -/
theorem label_angle_counterexample :
    labelPlacements [[Pt.mk 0 30, Pt.mk 0 0]] = [⟨0, 15, Pt.mk 0 30, Pt.mk 0 0⟩] ∧
      Complex.arg ⟨(0 : ℝ), (-30 : ℝ)⟩ = -(Real.pi / 2) ∧
      NormalizedTo (-(Real.pi / 2)) (-(Real.pi / 2)) ∧
      -(Real.pi / 2) ∉ Set.Ioc (-(Real.pi / 2)) (Real.pi / 2) := by
  have hpi := Real.pi_pos
  refine ⟨?_, ?_, ?_, ?_⟩
  · norm_num [labelPlacements, selectedCands, sortCandDesc, insertCandDesc, candidatesOf,
      candOf, maxLabels, minLen, List.filterMap]
  · rw [Complex.arg_eq_neg_pi_div_two_iff]
    constructor <;> norm_num
  · exact Or.inr (Or.inr ⟨by rw [not_lt]; linarith, by rw [not_lt], rfl⟩)
  · simp [Set.mem_Ioc]

/-- `C8` (amended): for one level's segment list, candidates are the chords
of the ≥2-point segments with chord length at least 30px (`len2 ≥ 900`); at
most the top `maxLabels = 5` by descending chord length are labelled, each
at its chord midpoint, and every unlabelled candidate is no longer than any
labelled one; the rotation angle is the chord angle normalized into the
closed interval `[-90°, 90°]` (the claim's `(-90°, 90°]` excludes the
attainable `-90°`). -/
theorem label_placer_spec (segments : List (List Pt)) :
    (labelPlacements segments).length ≤ maxLabels ∧
    (∀ c ∈ candidatesOf segments, minLen * minLen ≤ c.len2 ∧
      ∃ seg ∈ segments, 2 ≤ seg.length ∧ seg.head? = some c.a ∧ seg.getLast? = some c.b ∧
        c.len2 = (c.b.x - c.a.x) * (c.b.x - c.a.x) + (c.b.y - c.a.y) * (c.b.y - c.a.y)) ∧
    (∀ pl ∈ labelPlacements segments, ∃ c ∈ selectedCands segments,
      pl = ⟨(c.a.x + c.b.x) / 2, (c.a.y + c.b.y) / 2, c.a, c.b⟩) ∧
    (selectedCands segments).Pairwise (fun c d => d.len2 ≤ c.len2) ∧
    List.Perm (selectedCands segments ++ (sortCandDesc (candidatesOf segments)).drop maxLabels)
      (candidatesOf segments) ∧
    (∀ c ∈ selectedCands segments,
      ∀ d ∈ (sortCandDesc (candidatesOf segments)).drop maxLabels, d.len2 ≤ c.len2) ∧
    ∀ c ∈ selectedCands segments, ∀ θ' : ℝ,
      NormalizedTo (Complex.arg ⟨((c.b.x - c.a.x : ℚ) : ℝ), ((c.b.y - c.a.y : ℚ) : ℝ)⟩) θ' →
        -(Real.pi / 2) ≤ θ' ∧ θ' ≤ Real.pi / 2 := by
  have hpair := sortCandDesc_pairwise (candidatesOf segments)
  have hsplit := List.take_append_drop maxLabels (sortCandDesc (candidatesOf segments))
  refine ⟨?_, ?_, ?_, ?_, ?_, ?_, ?_⟩
  · rw [labelPlacements, List.length_map, selectedCands, List.length_take]
    exact min_le_left _ _
  · intro c hc
    obtain ⟨seg, hseg, hcand⟩ := List.mem_filterMap.mp hc
    rw [candOf] at hcand
    by_cases hlen : seg.length < 2
    · rw [if_pos hlen] at hcand
      exact absurd hcand (by simp)
    · rw [if_neg hlen] at hcand
      have hne : seg ≠ [] := by
        intro hnil
        rw [hnil] at hlen
        exact hlen (by norm_num)
      obtain ⟨a, ha⟩ := Option.ne_none_iff_exists'.mp (mt List.head?_eq_none_iff.mp hne)
      obtain ⟨b, hb⟩ := Option.ne_none_iff_exists'.mp (mt List.getLast?_eq_none_iff.mp hne)
      rw [ha, hb] at hcand
      dsimp only at hcand
      by_cases hml : minLen * minLen ≤ (b.x - a.x) * (b.x - a.x) + (b.y - a.y) * (b.y - a.y)
      · rw [if_pos hml] at hcand
        obtain rfl := Option.some.inj hcand
        exact ⟨hml, seg, hseg, not_lt.mp hlen, ha, hb, rfl⟩
      · rw [if_neg hml] at hcand
        exact absurd hcand (by simp)
  · intro pl hpl
    obtain ⟨c, hc, rfl⟩ := List.mem_map.mp hpl
    exact ⟨c, hc, rfl⟩
  · exact List.Pairwise.sublist (List.take_sublist _ _) hpair
  · have : selectedCands segments = (sortCandDesc (candidatesOf segments)).take maxLabels :=
      rfl
    rw [this, hsplit]
    exact sortCandDesc_perm _
  · have := hpair
    rw [← hsplit, List.pairwise_append] at this
    exact this.2.2
  · intro c _ θ' hθ
    exact normalizedTo_range (Complex.neg_pi_lt_arg _) (Complex.arg_le_pi _) hθ

/-- Witness for `label_placer_spec`: the horizontal 40px chord from `(0,0)`
to `(40,0)` is labelled; its chord angle is 0, which normalizes to itself
and lies in `[-π/2, π/2]`. -/
theorem label_placer_spec_witness :
    (labelPlacements [[Pt.mk 0 0, Pt.mk 40 0]]).length ≤ maxLabels ∧
      (-(Real.pi / 2) ≤ (0 : ℝ) ∧ (0 : ℝ) ≤ Real.pi / 2) := by
  have hpi := Real.pi_pos
  refine ⟨(label_placer_spec [[Pt.mk 0 0, Pt.mk 40 0]]).1, ?_⟩
  have hc : (⟨Pt.mk 0 0, Pt.mk 40 0, 1600⟩ : Cand) ∈ selectedCands [[Pt.mk 0 0, Pt.mk 40 0]] := by
    norm_num [selectedCands, sortCandDesc, insertCandDesc, candidatesOf, candOf, maxLabels,
      minLen, List.filterMap]
  have harg : Complex.arg ⟨(((Pt.mk 40 0).x - (Pt.mk 0 0).x : ℚ) : ℝ),
      (((Pt.mk 40 0).y - (Pt.mk 0 0).y : ℚ) : ℝ)⟩ = 0 := by
    rw [Complex.arg_eq_zero_iff]
    constructor <;> norm_num
  refine (label_placer_spec [[Pt.mk 0 0, Pt.mk 40 0]]).2.2.2.2.2.2
    ⟨Pt.mk 0 0, Pt.mk 40 0, 1600⟩ hc 0 ?_
  exact Or.inr (Or.inr ⟨by rw [not_lt, harg]; linarith, by rw [not_lt, harg]; linarith,
    harg.symm⟩)

/-! ## Wind Symbol Renderer (`drawWindBarb`) -/

/-- A drawing primitive emitted by `drawWindBarb`: the calm circle, a
stroked line (staff, full barb or half barb), or a filled pennant
triangle. -/
inductive BarbPrim
  | circle (x y r : ℚ)
  | line (x1 y1 x2 y2 : ℚ)
  | flag (x1 y1 x2 y2 x3 y3 : ℚ)
  deriving Repr, DecidableEq

/-- The 50/10/5-kt decomposition of `drawWindBarb`:
`v = Math.round(spd / 5) * 5`, `n50 = Math.floor(v / 50)`, `v -= n50 * 50`,
`n10 = Math.floor(v / 10)`, `v -= n10 * 10`, `n5 = v >= 5 ? 1 : 0`. -/
def barbCounts (spd : ℚ) : ℤ × ℤ × ℤ :=
  let v0 : ℚ := (jsRound (spd / 5) : ℚ) * 5
  let n50 := ⌊v0 / 50⌋
  let v1 := v0 - (n50 : ℚ) * 50
  let n10 := ⌊v1 / 10⌋
  let v2 := v1 - (n10 : ℚ) * 10
  (n50, n10, if 5 ≤ v2 then 1 else 0)

/-- The 50-kt pennant loop of `drawWindBarb` (`flagLen = 12`,
`barbLen = 11`): each iteration fills one triangle at the current tip
position `(b1, b2)` and steps back `flagLen + 1` along the staff. -/
def flagLoop (dx dy px py : ℚ) : ℕ → ℚ → ℚ → List BarbPrim × ℚ × ℚ
  | 0, b1, b2 => ([], b1, b2)
  | n + 1, b1, b2 =>
    let fx2 := b1 - 12 * dx
    let fy2 := b2 - 12 * dy
    let rest := flagLoop dx dy px py n (b1 - 13 * dx) (b2 - 13 * dy)
    (BarbPrim.flag b1 b2 fx2 fy2 (fx2 + 11 * px) (fy2 + 11 * py) :: rest.1, rest.2)

/-- The 10-kt barb loop of `drawWindBarb` (`barbLen = 11`, `step = 5`). -/
def barbLoop (dx dy px py : ℚ) : ℕ → ℚ → ℚ → List BarbPrim × ℚ × ℚ
  | 0, b1, b2 => ([], b1, b2)
  | n + 1, b1, b2 =>
    let rest := barbLoop dx dy px py n (b1 - 5 * dx) (b2 - 5 * dy)
    (BarbPrim.line b1 b2 (b1 + 11 * px) (b2 + 11 * py) :: rest.1, rest.2)

/-- `drawWindBarb`, with the real trigonometric primitives `Math.PI`,
`Math.cos`, `Math.sin` abstracted as parameters (no claim depends on their
values): the list of drawing primitives the function emits, in order.  A
null direction or speed draws nothing; the speed is clamped at 0
(`Math.max(0, spdKt)`); clamped speeds below 2 kt draw only the small calm
circle of radius 5; otherwise the staff is drawn from the attach point,
followed by the pennants, full barbs and optional half barb. -/
def drawWindBarb (pi : ℚ) (cos sin : ℚ → ℚ) (x y attachRadius : ℚ)
    (dirDeg spdKt : Option ℚ) : List BarbPrim :=
  match dirDeg, spdKt with
  | some dirDeg, some spdKt =>
    let spd := max 0 spdKt
    if spd < 2 then [BarbPrim.circle x y 5]
    else
      let theta := (dirDeg - 90) * pi / 180
      let dx := cos theta
      let dy := sin theta
      let x0 := x + attachRadius * dx
      let y0 := y + attachRadius * dy
      let x2 := x0 + 30 * dx
      let y2 := y0 + 30 * dy
      let px := cos (theta + pi / 2)
      let py := sin (theta + pi / 2)
      let c := barbCounts spd
      let f := flagLoop dx dy px py c.1.toNat x2 y2
      let b := barbLoop dx dy px py c.2.1.toNat f.2.1 f.2.2
      BarbPrim.line x0 y0 x2 y2 ::
        (f.1 ++ b.1 ++
          if c.2.2 = 1 then
            [BarbPrim.line b.2.1 b.2.2 (b.2.1 + 11 / 2 * px) (b.2.2 + 11 / 2 * py)]
          else [])
  | _, _ => []

/-- `C9`: speed 47 kt rounds to 45 kt and decomposes as `n50=0, n10=4, n5=1`;
speed 53 kt rounds to 55 kt and decomposes as `n50=1, n10=0, n5=1`. -/
theorem barb_decomposition_examples :
    (jsRound ((47 : ℚ) / 5) : ℚ) * 5 = 45 ∧ barbCounts 47 = (0, 4, 1) ∧
      (jsRound ((53 : ℚ) / 5) : ℚ) * 5 = 55 ∧ barbCounts 53 = (1, 0, 1) := by
  refine ⟨by norm_num [jsRound], ?_, by norm_num [jsRound], ?_⟩ <;>
    norm_num [barbCounts, jsRound, Prod.ext_iff]

/-- `C10`: `drawWindBarb` emits nothing when the direction or speed is null;
and since a negative speed is clamped to 0, every speed below 2 kt —
including all negative speeds — draws exactly the small calm circle, while
a speed of 2 kt or more starts with a staff line instead. -/
theorem windbarb_null_and_calm (pi : ℚ) (cos sin : ℚ → ℚ) (x y r : ℚ)
    (dirDeg spdKt : Option ℚ) :
    (dirDeg = none ∨ spdKt = none → drawWindBarb pi cos sin x y r dirDeg spdKt = []) ∧
    (∀ d s : ℚ, s < 2 →
      drawWindBarb pi cos sin x y r (some d) (some s) = [BarbPrim.circle x y 5]) ∧
    ∀ d s : ℚ, ¬s < 2 → ∃ q1 q2 q3 q4 rest,
      drawWindBarb pi cos sin x y r (some d) (some s) = BarbPrim.line q1 q2 q3 q4 :: rest := by
  refine ⟨?_, ?_, ?_⟩
  · rintro (rfl | rfl)
    · cases spdKt <;> rfl
    · cases dirDeg <;> rfl
  · intro d s hs
    have hmax : max 0 s < 2 := max_lt (by norm_num) hs
    simp only [drawWindBarb, if_pos hmax]
  · intro d s hs
    have hmax : ¬max 0 s < 2 :=
      not_lt.mpr (le_trans (not_lt.mp hs) (le_max_right 0 s))
    simp only [drawWindBarb, if_neg hmax]
    exact ⟨_, _, _, _, _, rfl⟩

/-- Witness for `windbarb_null_and_calm`: a null direction draws nothing and
a −5 kt speed draws the calm circle. -/
theorem windbarb_null_and_calm_witness :
    drawWindBarb 3 (fun t => t) (fun t => t) 0 0 0 none (some 10) = [] ∧
      drawWindBarb 3 (fun t => t) (fun t => t) 0 0 0 (some 90) (some (-5)) =
        [BarbPrim.circle 0 0 5] :=
  ⟨(windbarb_null_and_calm 3 (fun t => t) (fun t => t) 0 0 0 none (some 10)).1 (Or.inl rfl),
    (windbarb_null_and_calm 3 (fun t => t) (fun t => t) 0 0 0 none (some 10)).2.1 90 (-5)
      (by norm_num)⟩
